import Mathlib

/-!
Shallow embedding of the `@tokenring-ai/codebase` package core:
the resource registry with per-session enabled-set mutation
(`src/CodeBaseService.ts`), the repo-map synthesizer
(`generateRepoMap` / `formatFileOutput` / `getLanguageFromExtension`),
the session state slice (`CodeBaseState` in `src/tools/listResources.ts`),
and the three-phase context assembler (`getContextItems` in `src/plugin.ts`).

JavaScript `Set<string>` values are modelled as insertion-ordered
duplicate-free lists of strings; `Promise` rejection / thrown exceptions
are modelled with `Except`; the external file system and symbol chunker
are oracles passed in as functions.
-/

namespace CodeBase

/-- Error taxonomy for registry mutation: a supplied name/pattern resolved
to zero registered resources (spec §7 `UnknownResource`). -/
inductive RegistryError where
  | unknownResource (pattern : String)
deriving DecidableEq, Repr

/-- A JavaScript `Set.add`: append the element iff it is not yet a member
(JS sets keep insertion order). -/
def jsAdd (s : List String) (x : String) : List String :=
  if x ∈ s then s else s ++ [x]

/-- A JavaScript `Set.delete`: remove the element (a no-op when absent). -/
def jsDelete (s : List String) (x : String) : List String :=
  s.filter (fun y => y ≠ x)

/-- JavaScript `new Set(list)`: insert the list's elements left to right,
dropping duplicates, keeping first-insertion order. -/
def jsNewSet (l : List String) : List String :=
  l.foldl jsAdd []

/-- Does the name pattern end in the wildcard suffix `"/*"`? -/
def endsWithSlashStar (p : String) : Bool :=
  match p.toList.reverse with
  | '*' :: '/' :: _ => true
  | _ => false

/-- The pattern with its final two characters (the `"/*"`) removed. -/
def dropLastTwo (p : String) : String :=
  String.mk p.toList.dropLast.dropLast

/-- Is the first character list a prefix of the second? -/
def isPrefixList : List Char → List Char → Bool
  | [], _ => true
  | _ :: _, [] => false
  | a :: as, b :: bs => a = b && isPrefixList as bs

/-- Modelled from the spec: `KeyedRegistry.ensureItemNamesLike` lives in the
external `@tokenring-ai/utility` package and is absent from this repository;
spec §4.1 `resolve(pattern)`: without a `/*` suffix the pattern must be a
registered name and resolves to itself; with a `/*` suffix it resolves to
every registered name equal to the stripped prefix or nested under it; an
empty result set fails with `UnknownResource`. The registry is modelled by
its list of registered names. -/
def resolvePattern (registry : List String) (pattern : String) :
    Except RegistryError (List String) :=
  if endsWithSlashStar pattern then
    let p := dropLastTwo pattern
    let matched := registry.filter
      (fun n => n = p || isPrefixList (p.toList ++ ['/']) n.toList)
    if matched.isEmpty then .error (.unknownResource pattern) else .ok matched
  else if pattern ∈ registry then .ok [pattern]
  else .error (.unknownResource pattern)

/-- `resourceNames.map(n => registry.ensureItemNamesLike(n)).flat()` as it
appears at the head of every mutator in `CodeBaseService.ts`: resolve each
name/pattern left to right, concatenating the matches; the first resolution
failure aborts the whole computation. -/
def resolveAll (registry : List String) : List String →
    Except RegistryError (List String)
  | [] => .ok []
  | n :: rest =>
    match resolvePattern registry n with
    | .error e => .error e
    | .ok m =>
      match resolveAll registry rest with
      | .error e => .error e
      | .ok ms => .ok (m ++ ms)

/-- The per-session state slice (`CodeBaseState`): the set of enabled
resource names, modelled as an insertion-ordered duplicate-free list. -/
structure CodeBaseState where
  enabledResources : List String
deriving DecidableEq, Repr

/-- `CodeBaseService.setEnabledResources` (`src/CodeBaseService.ts:37-44`):
resolve all names, then replace the enabled set with
`new Set(matchedResourceNames)`. -/
def setEnabledResources (registry : List String) (resourceNames : List String)
    (st : CodeBaseState) : Except RegistryError CodeBaseState :=
  match resolveAll registry resourceNames with
  | .error e => .error e
  | .ok matched => .ok { st with enabledResources := jsNewSet matched }

/-- `CodeBaseService.enableResources` (`src/CodeBaseService.ts:46-55`):
resolve all names, then `add` each resolved name to the enabled set. -/
def enableResources (registry : List String) (resourceNames : List String)
    (st : CodeBaseState) : Except RegistryError CodeBaseState :=
  match resolveAll registry resourceNames with
  | .error e => .error e
  | .ok matched =>
    .ok { st with enabledResources := matched.foldl jsAdd st.enabledResources }

/-- `CodeBaseService.disableResources` (`src/CodeBaseService.ts:57-66`):
resolve all names, then `delete` each resolved name from the enabled set. -/
def disableResources (registry : List String) (resourceNames : List String)
    (st : CodeBaseState) : Except RegistryError CodeBaseState :=
  match resolveAll registry resourceNames with
  | .error e => .error e
  | .ok matched =>
    .ok { st with enabledResources := matched.foldl jsDelete st.enabledResources }

/-- A thrown `UnknownResource` propagates out of the mutator before
`agent.mutateState` runs, so the session keeps its previous state: running
a mutation means taking the new state on success and the old one on error. -/
def runMutation (st : CodeBaseState)
    (r : Except RegistryError CodeBaseState) : CodeBaseState :=
  match r with
  | .ok st' => st'
  | .error _ => st

/-- `CodeBaseState.serialize` (`src/tools/listResources.ts:86-90`):
`Array.from(this.enabledResources)` — the set's members in order. -/
def CodeBaseState.serialize (st : CodeBaseState) : List String :=
  st.enabledResources

/-- `CodeBaseState.deserialize` (`src/tools/listResources.ts:92-94`):
`this.enabledResources = new Set(data.enabledResources)` — no validation
against the registry. -/
def CodeBaseState.deserialize (data : List String) : CodeBaseState :=
  { enabledResources := jsNewSet data }

/-! ### Basic facts about the JS-set model -/

theorem mem_jsAdd (s : List String) (x y : String) :
    y ∈ jsAdd s x ↔ y ∈ s ∨ y = x := by
  unfold jsAdd
  by_cases hx : x ∈ s
  · simp only [if_pos hx]
    constructor
    · exact Or.inl
    · rintro (h | rfl)
      · exact h
      · exact hx
  · simp [if_neg hx]

theorem mem_foldl_jsAdd (l : List String) (acc : List String) (y : String) :
    y ∈ l.foldl jsAdd acc ↔ y ∈ acc ∨ y ∈ l := by
  induction l generalizing acc with
  | nil => simp
  | cons x rest ih =>
    simp only [List.foldl_cons, ih, mem_jsAdd, List.mem_cons]
    tauto

theorem mem_jsNewSet (l : List String) (y : String) :
    y ∈ jsNewSet l ↔ y ∈ l := by
  unfold jsNewSet
  simp [mem_foldl_jsAdd]

theorem mem_foldl_jsDelete (l : List String) (acc : List String) (y : String) :
    y ∈ l.foldl jsDelete acc ↔ y ∈ acc ∧ y ∉ l := by
  induction l generalizing acc with
  | nil => simp
  | cons x rest ih =>
    simp only [List.foldl_cons, ih, jsDelete, List.mem_filter,
      List.mem_cons, decide_eq_true_eq]
    constructor
    · rintro ⟨⟨hacc, hne⟩, hrest⟩
      refine ⟨hacc, ?_⟩
      rintro (rfl | h)
      · exact hne rfl
      · exact hrest h
    · rintro ⟨hacc, hni⟩
      simp only [not_or] at hni
      exact ⟨⟨hacc, hni.1⟩, hni.2⟩

theorem foldl_jsAdd_of_nodup (l : List String) (acc : List String)
    (h : (acc ++ l).Nodup) : l.foldl jsAdd acc = acc ++ l := by
  induction l generalizing acc with
  | nil => simp
  | cons x rest ih =>
    rw [List.nodup_append] at h
    obtain ⟨hacc, hxr, hdisj⟩ := h
    have hx : x ∉ acc := fun hmem => hdisj hmem (by simp)
    simp only [List.foldl_cons, jsAdd, if_neg hx]
    have h' : ((acc ++ [x]) ++ rest).Nodup := by
      rw [List.nodup_append]
      rw [List.nodup_cons] at hxr
      refine ⟨?_, hxr.2, ?_⟩
      · rw [List.nodup_append]
        refine ⟨hacc, List.nodup_singleton x, ?_⟩
        intro a ha hb
        simp only [List.mem_singleton] at hb
        subst hb
        exact hx ha
      · intro a ha hb
        rcases List.mem_append.mp ha with ha' | ha'
        · exact hdisj ha' (List.mem_cons_of_mem x hb)
        · simp only [List.mem_singleton] at ha'
          subst ha'
          exact hxr.1 hb
    rw [ih (acc ++ [x]) h']
    simp

theorem jsNewSet_of_nodup (l : List String) (h : l.Nodup) :
    jsNewSet l = l := by
  unfold jsNewSet
  simpa using foldl_jsAdd_of_nodup l [] (by simpa using h)

/-! ### Resolution facts -/

theorem resolvePattern_mem_registry (registry : List String)
    (pattern : String) (names : List String)
    (h : resolvePattern registry pattern = .ok names) :
    ∀ n ∈ names, n ∈ registry := by
  unfold resolvePattern at h
  by_cases hw : endsWithSlashStar pattern
  · simp only [if_pos hw] at h
    by_cases he : (registry.filter (fun n =>
        n = dropLastTwo pattern ||
          isPrefixList ((dropLastTwo pattern).toList ++ ['/']) n.toList)).isEmpty
    · rw [if_pos he] at h
      simp at h
    · simp only [if_neg he, Except.ok.injEq] at h
      subst h
      intro n hn
      exact List.mem_of_mem_filter hn
  · simp only [if_neg hw] at h
    by_cases hm : pattern ∈ registry
    · simp only [if_pos hm, Except.ok.injEq] at h
      subst h
      intro n hn
      simp only [List.mem_singleton] at hn
      subst hn
      exact hm
    · simp [hm] at h

theorem resolveAll_mem_registry (registry : List String)
    (patterns : List String) (names : List String)
    (h : resolveAll registry patterns = .ok names) :
    ∀ n ∈ names, n ∈ registry := by
  induction patterns generalizing names with
  | nil =>
    simp only [resolveAll, Except.ok.injEq] at h
    subst h
    intro n hn
    simp at hn
  | cons p rest ih =>
    simp only [resolveAll] at h
    cases hp : resolvePattern registry p with
    | error e => rw [hp] at h; simp at h
    | ok m =>
      rw [hp] at h
      cases hr : resolveAll registry rest with
      | error e => rw [hr] at h; simp at h
      | ok ms =>
        rw [hr] at h
        simp only [Except.ok.injEq] at h
        subst h
        intro n hn
        rcases List.mem_append.mp hn with hn | hn
        · exact resolvePattern_mem_registry registry p m hp n hn
        · exact ih ms hr n hn

theorem resolveAll_error_of_mem (registry : List String)
    (patterns : List String) (p : String) (e : RegistryError)
    (hp : p ∈ patterns) (he : resolvePattern registry p = .error e) :
    ∃ e', resolveAll registry patterns = .error e' := by
  induction patterns with
  | nil => simp at hp
  | cons q rest ih =>
    rcases List.mem_cons.mp hp with rfl | hmem
    · refine ⟨e, ?_⟩
      simp only [resolveAll]
      rw [he]
    · cases hq : resolvePattern registry q with
      | error e' =>
        refine ⟨e', ?_⟩
        simp only [resolveAll]
        rw [hq]
      | ok m =>
        obtain ⟨e', hrest⟩ := ih hmem
        refine ⟨e', ?_⟩
        simp only [resolveAll]
        rw [hq, hrest]

/-! ### Repo-map synthesizer (`generateRepoMap` and helpers) -/

/-- The language tags of the external `code-chopper` package's
`LanguageEnum` that appear in the extension table. -/
inductive LanguageEnum where
  | javascript
  | typescript
  | python
  | c
  | cpp
  | rust
  | go
  | java
  | ruby
  | bash
deriving DecidableEq, Repr

/-- `CodeBaseService.getLanguageFromExtension`
(`src/CodeBaseService.ts:107-139`): the fixed `switch` on the extension,
with fall-through cases grouped as disjunctions; the `default` arm is
`null`. -/
def getLanguageFromExtension (ext : String) : Option LanguageEnum :=
  if ext = ".js" ∨ ext = ".jsx" then some .javascript
  else if ext = ".ts" ∨ ext = ".tsx" then some .typescript
  else if ext = ".py" then some .python
  else if ext = ".h" ∨ ext = ".c" then some .c
  else if ext = ".hxx" ∨ ext = ".cxx" ∨ ext = ".hpp" ∨ ext = ".cpp" then
    some .cpp
  else if ext = ".rs" then some .rust
  else if ext = ".go" then some .go
  else if ext = ".java" then some .java
  else if ext = ".rb" then some .ruby
  else if ext = ".sh" ∨ ext = ".bash" then some .bash
  else none

/-- Index (from the front) of the last `'.'` in a character list, if any. -/
def lastDotPos : List Char → Option Nat
  | [] => none
  | c :: rest =>
    match lastDotPos rest with
    | some i => some (i + 1)
    | none => if c = '.' then some 0 else none

/-- The characters of a path after its last `'/'`. -/
def basenameChars (l : List Char) : List Char :=
  (l.reverse.takeWhile (fun c => c ≠ '/')).reverse

/-- Model of Node's `path.extname` (the external `path` module used at
`src/CodeBaseService.ts:82`): the suffix of the path's basename starting at
its last dot, or `""` when the basename has no dot or its only dot is its
leading character. -/
def extname (p : String) : String :=
  let base := basenameChars p.toList
  match lastDotPos base with
  | some i => if 0 < i then String.mk (base.drop i) else ""
  | none => ""

/-- The whitespace characters JavaScript's `String.prototype.trim` strips,
restricted to the ASCII ones the sources can produce. -/
def isJsWhitespace (c : Char) : Bool :=
  c = ' ' || c = '\t' || c = '\n' || c = '\r' || c = '\x0b' || c = '\x0c'

/-- JavaScript `trim`: drop leading and trailing whitespace characters. -/
def trimChars (l : List Char) : List Char :=
  ((l.dropWhile isJsWhitespace).reverse.dropWhile isJsWhitespace).reverse

/-- `chunk.content.split("\n")[0]`: the text before the first newline. -/
def firstLineOf (s : String) : String :=
  String.mk (s.toList.takeWhile (fun ch => ch ≠ '\n'))

/-- `chunk.content.split("\n")[0].trim()` (`src/CodeBaseService.ts:147`). -/
def firstLineTrimmed (s : String) : String :=
  String.mk (trimChars (s.toList.takeWhile (fun ch => ch ≠ '\n')))

/-- A symbol chunk produced by the external `code-chopper` chunker; the
code only reads its raw `content` text. -/
structure Chunk where
  content : String
deriving DecidableEq, Repr

/-- A thrown error / rejected promise from an external collaborator,
carried as its message. -/
abbrev Err := String

/-- `CodeBaseService.formatFileOutput` (`src/CodeBaseService.ts:141-154`):
`null` for an empty chunk list, otherwise the header `"<path>:\n"` with one
`"- <first line of the chunk, trimmed>\n"` appended per chunk whose trimmed
first line is non-empty. -/
def formatFileOutput (filePath : String) (chunks : List Chunk) :
    Option String :=
  if chunks.isEmpty then none
  else
    some (chunks.foldl
      (fun out c =>
        let firstLine := firstLineTrimmed c.content
        if firstLine ≠ "" then out ++ ("- " ++ firstLine ++ "\n") else out)
      (filePath ++ ":\n"))

/-- The `code-chopper` chunker factory made by `createParserFactory`
(`src/CodeBaseService.ts:74`), modelled by its lifecycle flag. -/
structure ChunkerFactory where
  disposed : Bool
deriving DecidableEq, Repr

/-- The body of `generateRepoMap`'s per-file `try` block
(`src/CodeBaseService.ts:78-90`): read the file (a failure throws), skip
empty content, skip unmapped extensions, chunk the code (a failure throws),
format the section. -/
def processFile (getFile : String → Except Err String)
    (chunkCode : String → LanguageEnum → Except Err (List Chunk))
    (file : String) : Except Err (Option String) :=
  match getFile file with
  | .error e => .error e
  | .ok code =>
    if code = "" then .ok none
    else
      match getLanguageFromExtension (extname file) with
      | none => .ok none
      | some language =>
        match chunkCode code language with
        | .error e => .error e
        | .ok chunks => .ok (formatFileOutput file chunks)

/-- The `catch` wrapped around the per-file body
(`src/CodeBaseService.ts:91-96`): a thrown error is logged via
`agent.errorLine` and the file contributes no section. -/
def catchPerFile (r : Except Err (Option String)) :
    Except Err (Option String) :=
  match r with
  | .error _ => .ok none
  | .ok v => .ok v

/-- The `for (const file of files)` loop of `generateRepoMap`
(`src/CodeBaseService.ts:77-97`): run each file's body under its
`try/catch` and push the formatted section, if any, in file order. -/
def repoMapLoop (getFile : String → Except Err String)
    (chunkCode : String → LanguageEnum → Except Err (List Chunk)) :
    List String → Except Err (List String)
  | [] => .ok []
  | f :: rest =>
    match catchPerFile (processFile getFile chunkCode f) with
    | .error e => .error e
    | .ok sec =>
      match repoMapLoop getFile chunkCode rest with
      | .error e => .error e
      | .ok secs => .ok (sec.toList ++ secs)

/-- The fixed explanatory preamble of a non-empty repo map
(`src/CodeBaseService.ts:102`), up to and including its newline. -/
def repoMapPreamble : String :=
  "// These are snippets of the symbols in the project. This DOES NOT contain the full file contents. This only includes relevant symbols for you to reference so you know what to retrieve with the retrieveFiles resource:\n"

/-- `CodeBaseService.generateRepoMap` (`src/CodeBaseService.ts:69-105`):
create the factory, run the per-file loop, then `factory.dispose()` (the
statement straight after the loop — the source has no `finally`, so the
model flips the flag only when the loop completes), then return the joined
sections behind the preamble, or `none` (the `null` sentinel) when no
section was produced. The result pairs the returned value with the factory
state at exit. -/
def generateRepoMap (getFile : String → Except Err String)
    (chunkCode : String → LanguageEnum → Except Err (List Chunk))
    (files : List String) : Except Err (Option String × ChunkerFactory) :=
  let factory : ChunkerFactory := { disposed := false }
  match repoMapLoop getFile chunkCode files with
  | .error e => .error e
  | .ok repoMap =>
    let factory := { factory with disposed := true }
    if repoMap.length > 0 then
      .ok (some (repoMapPreamble ++ String.intercalate "\n" repoMap), factory)
    else
      .ok (none, factory)

/-! ### Facts about the synthesizer -/

/-- The section a single file contributes once its `try/catch` has run. -/
def sectionOf (getFile : String → Except Err String)
    (chunkCode : String → LanguageEnum → Except Err (List Chunk))
    (file : String) : Option String :=
  match processFile getFile chunkCode file with
  | .error _ => none
  | .ok v => v

theorem catchPerFile_processFile (getFile : String → Except Err String)
    (chunkCode : String → LanguageEnum → Except Err (List Chunk))
    (file : String) :
    catchPerFile (processFile getFile chunkCode file) =
      .ok (sectionOf getFile chunkCode file) := by
  unfold catchPerFile sectionOf
  cases processFile getFile chunkCode file <;> rfl

theorem repoMapLoop_eq (getFile : String → Except Err String)
    (chunkCode : String → LanguageEnum → Except Err (List Chunk))
    (files : List String) :
    repoMapLoop getFile chunkCode files =
      .ok (files.filterMap (sectionOf getFile chunkCode)) := by
  induction files with
  | nil => rfl
  | cons f rest ih =>
    simp only [repoMapLoop, catchPerFile_processFile, ih, List.filterMap_cons]
    cases sectionOf getFile chunkCode f <;> rfl

theorem generateRepoMap_eq (getFile : String → Except Err String)
    (chunkCode : String → LanguageEnum → Except Err (List Chunk))
    (files : List String) :
    generateRepoMap getFile chunkCode files =
      .ok (if files.filterMap (sectionOf getFile chunkCode) = [] then none
           else some (repoMapPreamble ++ String.intercalate "\n"
             (files.filterMap (sectionOf getFile chunkCode))),
           { disposed := true }) := by
  unfold generateRepoMap
  rw [repoMapLoop_eq]
  rcases h : files.filterMap (sectionOf getFile chunkCode) with _ | ⟨s, rest⟩
  · simp
  · simp

theorem formatFileOutput_eq_none_iff (filePath : String)
    (chunks : List Chunk) :
    formatFileOutput filePath chunks = none ↔ chunks = [] := by
  unfold formatFileOutput
  rcases chunks with _ | ⟨c, rest⟩ <;> simp

/-- A file contributes no section exactly when the read throws, the content
is empty, the extension is unmapped, or the chunker throws or yields zero
chunks. -/
theorem sectionOf_eq_none_iff (getFile : String → Except Err String)
    (chunkCode : String → LanguageEnum → Except Err (List Chunk))
    (file : String) :
    sectionOf getFile chunkCode file = none ↔
      ((∃ e, getFile file = .error e) ∨ getFile file = .ok "" ∨
        getLanguageFromExtension (extname file) = none ∨
        (∃ code language, getFile file = .ok code ∧ code ≠ "" ∧
          getLanguageFromExtension (extname file) = some language ∧
          ((∃ e, chunkCode code language = .error e) ∨
            chunkCode code language = .ok []))) := by
  cases hg : getFile file with
  | error e => simp [sectionOf, processFile, hg]
  | ok code =>
    by_cases hc : code = ""
    · subst hc
      simp [sectionOf, processFile, hg]
    · cases hl : getLanguageFromExtension (extname file) with
      | none => simp [sectionOf, processFile, hg, hc, hl]
      | some language =>
        cases hk : chunkCode code language with
        | error e =>
          have hlhs : sectionOf getFile chunkCode file = none := by
            simp [sectionOf, processFile, hg, hc, hl, hk]
          rw [hlhs]
          constructor
          · intro _
            exact Or.inr (Or.inr (Or.inr
              ⟨code, language, rfl, hc, rfl, Or.inl ⟨e, hk⟩⟩))
          · intro _
            rfl
        | ok chunks =>
          have hlhs : sectionOf getFile chunkCode file =
              formatFileOutput file chunks := by
            simp [sectionOf, processFile, hg, hc, hl, hk]
          rw [hlhs, formatFileOutput_eq_none_iff]
          constructor
          · intro h
            exact Or.inr (Or.inr (Or.inr
              ⟨code, language, rfl, hc, rfl, Or.inr (by rw [hk, h])⟩))
          · rintro (⟨e, he⟩ | he | hn | ⟨code', language', hcode, hne, hlang, hck⟩)
            · exact absurd he (by simp)
            · exact absurd (Except.ok.inj he) hc
            · exact absurd hn (by simp)
            · obtain rfl := (Except.ok.inj hcode).symm
              obtain rfl := (Option.some.inj hlang).symm
              rcases hck with ⟨e, hk'⟩ | hk'
              · rw [hk] at hk'
                exact absurd hk' (by simp)
              · rw [hk] at hk'
                exact Except.ok.inj hk'

/-! ### The claim-side formatter and the amended bullet line -/

/-- Split a character list at newlines, JavaScript `split("\n")` style:
the result always has one more part than there are newlines. -/
def splitOnNewline : List Char → List (List Char)
  | [] => [[]]
  | c :: rest =>
    match splitOnNewline rest with
    | [] => if c = '\n' then [[], []] else [[c]]
    | first :: others =>
      if c = '\n' then [] :: first :: others else (c :: first) :: others

/-- The label claim C6 describes: the chunk's first non-blank line, with
leading and trailing whitespace stripped; `""` when every line is blank. -/
def firstNonBlankLineTrimmed (s : String) : String :=
  match (splitOnNewline s.toList).filter (fun l => ¬trimChars l = []) with
  | [] => ""
  | l :: _ => String.mk (trimChars l)

/-- The formatter exactly as claim C6 words it (a reference definition for
the refinement comparison, not translated from the source): header then one
`"- <label>"` line per chunk whose label — the first non-blank line,
trimmed — is non-blank. -/
def formatFileOutputClaimed (filePath : String) (chunks : List Chunk) :
    Option String :=
  if chunks.isEmpty then none
  else
    some (chunks.foldl
      (fun out c =>
        let label := firstNonBlankLineTrimmed c.content
        if label ≠ "" then out ++ ("- " ++ label ++ "\n") else out)
      (filePath ++ ":\n"))

/-- The text a chunk actually contributes to its file's section:
`"- <first line, trimmed>\n"`, or nothing when that label is blank. -/
def chunkBulletLine (c : Chunk) : String :=
  let firstLine := firstLineTrimmed c.content
  if firstLine = "" then "" else "- " ++ firstLine ++ "\n"

/-- Concatenation of a list of strings, in order. -/
def concatAll : List String → String
  | [] => ""
  | s :: rest => s ++ concatAll rest

theorem stringAppendAssoc (a b c : String) : a ++ b ++ c = a ++ (b ++ c) := by
  apply String.ext
  simp [String.data_append, List.append_assoc]

theorem foldl_stringStep (g : Chunk → String) (chunks : List Chunk)
    (acc : String) :
    chunks.foldl (fun out c => out ++ g c) acc =
      acc ++ concatAll (chunks.map g) := by
  induction chunks generalizing acc with
  | nil => simp [concatAll]
  | cons c rest ih =>
    simp only [List.foldl_cons, List.map_cons, concatAll]
    rw [ih, stringAppendAssoc]

theorem foldl_chunkBulletLine (chunks : List Chunk) (acc : String) :
    chunks.foldl
      (fun out c =>
        let firstLine := firstLineTrimmed c.content
        if firstLine ≠ "" then out ++ ("- " ++ firstLine ++ "\n") else out)
      acc = acc ++ concatAll (chunks.map chunkBulletLine) := by
  have hfun : (fun (out : String) (c : Chunk) =>
      let firstLine := firstLineTrimmed c.content
      if firstLine ≠ "" then out ++ ("- " ++ firstLine ++ "\n") else out) =
      fun (out : String) (c : Chunk) => out ++ chunkBulletLine c := by
    funext out c
    by_cases hb : firstLineTrimmed c.content = ""
    · simp [chunkBulletLine, hb]
    · simp [chunkBulletLine, hb, stringAppendAssoc]
  rw [hfun, foldl_stringStep]

/-! ### Context assembler (`getContextItems` in `src/plugin.ts`) -/

/-- The resource kinds of the configuration schema (`"fileTree"`,
`"repoMap"`, `"wholeFile"` in `src/schema.ts` / `src/plugin.ts:38-57`),
which select the `FileTreeResource` / `RepoMapResource` /
`WholeFileResource` subclasses the assembler tests with `instanceof`. -/
inductive ResourceKind where
  | fileTree
  | repoMap
  | wholeFile
deriving DecidableEq, Repr

/-- A registered `FileMatchResource` as the assembler sees it: its subclass
tag and the file paths its `addFilesToSet` inserts, in insertion order
(file enumeration is modelled as reliable: the enumerated paths are part of
the value). -/
structure FileMatchResource where
  kind : ResourceKind
  files : List String
deriving DecidableEq, Repr

/-- `resource.addFilesToSet(set, agent)`: insert the resource's matched
paths into the caller's set, in order. -/
def addFilesToSet (s : List String) (r : FileMatchResource) : List String :=
  r.files.foldl jsAdd s

/-- One phase's union: the `for (const name in resources)` loops of
`getContextItems`, inserting the files of every resource passing that
phase's `instanceof` filter into one set, in resource order. -/
def unionFiles (resources : List FileMatchResource)
    (keep : ResourceKind → Bool) : List String :=
  (resources.filter (fun r => keep r.kind)).foldl addFilesToSet []

/-- The tree phase's filter (`src/plugin.ts:139-142`): not a
`WholeFileResource` and not a `RepoMapResource`. -/
def treeKept (k : ResourceKind) : Bool :=
  !(k == ResourceKind.wholeFile) && !(k == ResourceKind.repoMap)

/-- One emitted context item; `role` is always `"user"` here. -/
structure ContextItem where
  role : String
  content : String
deriving DecidableEq, Repr

/-- The tree item's fixed header line (`src/plugin.ts:151`), up to and
including its newline. -/
def treeHeader : String := "// Directory Tree of project files:\n"

/-- Code-point comparison of character lists, the order JavaScript's
default `Array.prototype.sort` applies to these ASCII path strings. -/
def charListLe : List Char → List Char → Bool
  | [], _ => true
  | _ :: _, [] => false
  | a :: as, b :: bs => if a = b then charListLe as bs else decide (a < b)

/-- Lexicographic string comparison for `Array.from(set).sort()`. -/
def stringLe (a b : String) : Bool :=
  charListLe a.toList b.toList

/-- Insert a string into an already sorted list. -/
def insertSorted (x : String) : List String → List String
  | [] => [x]
  | y :: ys => if stringLe x y then x :: y :: ys else y :: insertSorted x ys

/-- `Array.from(set).sort()` (`src/plugin.ts:151-154`): the set's members
sorted lexicographically. -/
def sortStrings (l : List String) : List String :=
  l.foldr insertSorted []

/-- The item the whole-file phase yields for one file
(`src/plugin.ts:198-202`). -/
def wholeFileItem (file content : String) : ContextItem :=
  { role := "user",
    content := "// Complete contents of file: " ++ file ++ "\n" ++ content }

/-- The whole-file phase loop (`src/plugin.ts:196-203`): read each file of
the union, in union order, with `fileSystem.readTextFile` and yield one
item per file; a read failure escapes the generator, so later files yield
nothing. The result pairs the yielded items with the escaping error, if
any. -/
def wholeFileLoop (readTextFile : String → Except Err String) :
    List String → List ContextItem × Option Err
  | [] => ([], none)
  | f :: rest =>
    match readTextFile f with
    | .error e => ([], some e)
    | .ok content =>
      let step := wholeFileLoop readTextFile rest
      (wholeFileItem f content :: step.1, step.2)

/-- `getContextItems` (`src/plugin.ts:129-205`): the three-phase context
assembler, as the pair (items the generator yields, error it ends with, if
any). Tree phase: union the non-repo-map non-whole-file resources' files
and emit the header plus the sorted union when non-empty. Repo-map phase:
union the `RepoMapResource` files; when non-empty call `generateRepoMap`
and emit its text when not `null`. Whole-file phase: union the
`WholeFileResource` files and yield one item per file. -/
def getContextItems (resources : List FileMatchResource)
    (getFile : String → Except Err String)
    (chunkCode : String → LanguageEnum → Except Err (List Chunk))
    (readTextFile : String → Except Err String) :
    List ContextItem × Option Err :=
  let fileTreeFiles := unionFiles resources treeKept
  let treeItems : List ContextItem :=
    if fileTreeFiles.isEmpty then []
    else
      [{ role := "user",
         content := treeHeader ++
           String.intercalate "\n" (sortStrings fileTreeFiles) }]
  let repoMapFiles := unionFiles resources (fun k => k == ResourceKind.repoMap)
  let repoMapResult : Except Err (Option String) :=
    if repoMapFiles.isEmpty then .ok none
    else
      match generateRepoMap getFile chunkCode repoMapFiles with
      | .error e => .error e
      | .ok r => .ok r.1
  match repoMapResult with
  | .error e => (treeItems, some e)
  | .ok repoMap =>
    let repoItems : List ContextItem :=
      match repoMap with
      | some text => [{ role := "user", content := text }]
      | none => []
    let wholeFiles := unionFiles resources (fun k => k == ResourceKind.wholeFile)
    let wholeStep := wholeFileLoop readTextFile wholeFiles
    (treeItems ++ repoItems ++ wholeStep.1, wholeStep.2)

/-! ### Facts about the assembler -/

/-- The text the repo-map phase would emit: `none` when the repo-map union
is empty or `generateRepoMap` returned the sentinel. -/
def repoPhaseText (getFile : String → Except Err String)
    (chunkCode : String → LanguageEnum → Except Err (List Chunk))
    (files : List String) : Option String :=
  if files.isEmpty then none
  else if files.filterMap (sectionOf getFile chunkCode) = [] then none
  else some (repoMapPreamble ++ String.intercalate "\n"
    (files.filterMap (sectionOf getFile chunkCode)))

/-- The repo-map phase's emitted items. -/
def repoPhaseItems (getFile : String → Except Err String)
    (chunkCode : String → LanguageEnum → Except Err (List Chunk))
    (files : List String) : List ContextItem :=
  match repoPhaseText getFile chunkCode files with
  | some text => [{ role := "user", content := text }]
  | none => []

/-- The tree phase's emitted items. -/
def treePhaseItems (resources : List FileMatchResource) : List ContextItem :=
  if (unionFiles resources treeKept).isEmpty then []
  else
    [{ role := "user",
       content := treeHeader ++
         String.intercalate "\n" (sortStrings (unionFiles resources treeKept)) }]

theorem repoPhaseItems_length_le_one (getFile : String → Except Err String)
    (chunkCode : String → LanguageEnum → Except Err (List Chunk))
    (files : List String) :
    (repoPhaseItems getFile chunkCode files).length ≤ 1 := by
  unfold repoPhaseItems
  cases repoPhaseText getFile chunkCode files <;> simp

/-- The assembler never aborts before the whole-file phase: the repo-map
call always succeeds, and the emitted stream is the three phases'
contributions in order, ending with the whole-file loop's outcome. -/
theorem getContextItems_eq (resources : List FileMatchResource)
    (getFile : String → Except Err String)
    (chunkCode : String → LanguageEnum → Except Err (List Chunk))
    (readTextFile : String → Except Err String) :
    getContextItems resources getFile chunkCode readTextFile =
      (treePhaseItems resources ++
        repoPhaseItems getFile chunkCode
          (unionFiles resources (fun k => k == ResourceKind.repoMap)) ++
        (wholeFileLoop readTextFile
          (unionFiles resources (fun k => k == ResourceKind.wholeFile))).1,
       (wholeFileLoop readTextFile
          (unionFiles resources (fun k => k == ResourceKind.wholeFile))).2) := by
  simp only [getContextItems, treePhaseItems, repoPhaseItems, repoPhaseText]
  by_cases he : (unionFiles resources (fun k => k == ResourceKind.repoMap)).isEmpty
  · simp [he]
  · simp only [he, Bool.false_eq_true, if_false]
    rw [generateRepoMap_eq]

/-- The payload of a successful read (`""` is never used: the lemmas below
only apply it to reads known to succeed). -/
def okContentD (r : Except Err String) : String :=
  match r with
  | .ok c => c
  | .error _ => ""

/-- The if-then-else rendering of the tree phase's emission condition. -/
theorem treePhaseItems_eq (resources : List FileMatchResource) :
    treePhaseItems resources =
      (if unionFiles resources treeKept = [] then []
       else
         [{ role := "user",
            content := treeHeader ++
              String.intercalate "\n"
                (sortStrings (unionFiles resources treeKept)) }]) := by
  unfold treePhaseItems
  by_cases h : unionFiles resources treeKept = [] <;> simp [h]

theorem wholeFileLoop_all_ok (readTextFile : String → Except Err String)
    (files : List String) (h : ∀ f ∈ files, ∃ c, readTextFile f = .ok c) :
    wholeFileLoop readTextFile files =
      (files.map (fun f => wholeFileItem f (okContentD (readTextFile f))),
       none) := by
  induction files with
  | nil => rfl
  | cons f rest ih =>
    obtain ⟨c, hc⟩ := h f (by simp)
    simp only [wholeFileLoop, hc, List.map_cons]
    rw [ih (fun g hg => h g (by simp [hg]))]
    simp [okContentD, hc]

theorem wholeFileLoop_abort (readTextFile : String → Except Err String)
    (pre : List String) (f : String) (post : List String) (e : Err)
    (hpre : ∀ g ∈ pre, ∃ c, readTextFile g = .ok c)
    (hf : readTextFile f = .error e) :
    wholeFileLoop readTextFile (pre ++ f :: post) =
      (pre.map (fun g => wholeFileItem g (okContentD (readTextFile g))),
       some e) := by
  induction pre with
  | nil => simp [wholeFileLoop, hf]
  | cons g rest ih =>
    obtain ⟨c, hc⟩ := hpre g (by simp)
    simp only [List.cons_append, wholeFileLoop, hc, List.map_cons,
      List.append_eq]
    rw [ih (fun g' hg' => hpre g' (by simp [hg']))]
    simp [okContentD, hc]

/-! ### The claims -/

/-- **C1.** For every session state and every input list of names/patterns
that all resolve, `setEnabledResources` replaces the session's enabled set
with exactly the resolved set: the call succeeds with the enabled set
`new Set(matched)`, membership in the new set coincides with membership in
the resolved list, and no previously enabled name remains unless it is in
the resolved list. -/
theorem claim_C1_setEnabled_replaces (registry resourceNames : List String)
    (st : CodeBaseState) (matched : List String)
    (h : resolveAll registry resourceNames = .ok matched) :
    setEnabledResources registry resourceNames st =
      .ok { enabledResources := jsNewSet matched } ∧
    (∀ n, n ∈ jsNewSet matched ↔ n ∈ matched) ∧
    (∀ n ∈ st.enabledResources, n ∈ jsNewSet matched → n ∈ matched) := by
  refine ⟨?_, fun n => mem_jsNewSet matched n,
    fun n _ hn => (mem_jsNewSet matched n).mp hn⟩
  unfold setEnabledResources
  rw [h]

theorem claim_C1_witness :
    setEnabledResources ["a", "b"] ["a", "b"] { enabledResources := ["z"] } =
      .ok { enabledResources := jsNewSet ["a", "b"] } ∧
    (∀ n, n ∈ jsNewSet ["a", "b"] ↔ n ∈ (["a", "b"] : List String)) ∧
    (∀ n ∈ (CodeBaseState.mk ["z"]).enabledResources,
      n ∈ jsNewSet ["a", "b"] → n ∈ (["a", "b"] : List String)) :=
  claim_C1_setEnabled_replaces ["a", "b"] ["a", "b"]
    { enabledResources := ["z"] } ["a", "b"] rfl

/-- **C2.** Every mutating call whose argument list contains a
name/pattern resolving to zero registered resources fails with
`UnknownResource`, and the session's enabled state after the failed call is
exactly what it was before: partial application never occurs. -/
theorem claim_C2_mutators_atomic (registry resourceNames : List String)
    (st : CodeBaseState)
    (h : ∃ p ∈ resourceNames, ∃ e, resolvePattern registry p = .error e) :
    (∃ q, setEnabledResources registry resourceNames st =
        .error (.unknownResource q)) ∧
    (∃ q, enableResources registry resourceNames st =
        .error (.unknownResource q)) ∧
    (∃ q, disableResources registry resourceNames st =
        .error (.unknownResource q)) ∧
    runMutation st (setEnabledResources registry resourceNames st) = st ∧
    runMutation st (enableResources registry resourceNames st) = st ∧
    runMutation st (disableResources registry resourceNames st) = st := by
  obtain ⟨p, hp, e, he⟩ := h
  obtain ⟨e', herr⟩ := resolveAll_error_of_mem registry resourceNames p e hp he
  cases e' with
  | unknownResource q =>
    refine ⟨⟨q, ?_⟩, ⟨q, ?_⟩, ⟨q, ?_⟩, ?_, ?_, ?_⟩ <;>
      simp [setEnabledResources, enableResources, disableResources,
        runMutation, herr]

theorem claim_C2_witness :
    (∃ p ∈ (["a", "zzz"] : List String), ∃ e,
      resolvePattern ["a"] p = .error e) ∧
    runMutation { enabledResources := ["a"] }
      (enableResources ["a"] ["a", "zzz"] { enabledResources := ["a"] }) =
      { enabledResources := ["a"] } :=
  ⟨⟨"zzz", by decide, RegistryError.unknownResource "zzz", rfl⟩,
    (claim_C2_mutators_atomic ["a"] ["a", "zzz"] { enabledResources := ["a"] }
      ⟨"zzz", by decide, RegistryError.unknownResource "zzz", rfl⟩).2.2.2.2.1⟩

/-- **C3.** `generateRepoMap` never propagates a per-file read or parse
failure — it always succeeds — and it returns the `null` sentinel (not an
exception, not the empty string) exactly when zero file sections were
produced: every file failed to read, had empty content, had an unmapped
extension, or yielded zero chunks (a caught parse failure included). -/
theorem claim_C3_repoMap_error_policy
    (getFile : String → Except Err String)
    (chunkCode : String → LanguageEnum → Except Err (List Chunk))
    (files : List String) :
    ∃ r fac, generateRepoMap getFile chunkCode files = .ok (r, fac) ∧
      (r = none ↔ ∀ f ∈ files,
        (∃ e, getFile f = .error e) ∨ getFile f = .ok "" ∨
        getLanguageFromExtension (extname f) = none ∨
        (∃ code language, getFile f = .ok code ∧ code ≠ "" ∧
          getLanguageFromExtension (extname f) = some language ∧
          ((∃ e, chunkCode code language = .error e) ∨
            chunkCode code language = .ok []))) := by
  refine ⟨_, _, generateRepoMap_eq getFile chunkCode files, ?_⟩
  have hpt : (∀ f ∈ files, sectionOf getFile chunkCode f = none) ↔
      ∀ f ∈ files,
        (∃ e, getFile f = .error e) ∨ getFile f = .ok "" ∨
        getLanguageFromExtension (extname f) = none ∨
        (∃ code language, getFile f = .ok code ∧ code ≠ "" ∧
          getLanguageFromExtension (extname f) = some language ∧
          ((∃ e, chunkCode code language = .error e) ∨
            chunkCode code language = .ok [])) := by
    constructor
    · intro hall f hf
      exact (sectionOf_eq_none_iff getFile chunkCode f).mp (hall f hf)
    · intro hall f hf
      exact (sectionOf_eq_none_iff getFile chunkCode f).mpr (hall f hf)
  by_cases hs : files.filterMap (sectionOf getFile chunkCode) = []
  · rw [if_pos hs]
    exact iff_of_true rfl
      (hpt.mp (List.filterMap_eq_nil_iff.mp hs))
  · rw [if_neg hs]
    refine iff_of_false (by simp) ?_
    intro hall
    exact hs (List.filterMap_eq_nil_iff.mpr (hpt.mpr hall))

/-- **C4.** Given enabled resources whose whole-file union reads all
succeed, a full run of the context assembler emits, in this order: at most
one tree item — present exactly when the union of files of the resources
that are neither repo-map nor whole-file kind is non-empty, its content the
fixed header line followed by that union sorted lexicographically, one path
per line — then at most one repo-map item, then one item per file of the
whole-file union, in union order, and the run ends without error. -/
theorem claim_C4_phase_order (resources : List FileMatchResource)
    (getFile : String → Except Err String)
    (chunkCode : String → LanguageEnum → Except Err (List Chunk))
    (readTextFile : String → Except Err String)
    (h : ∀ f ∈ unionFiles resources (fun k => k == ResourceKind.wholeFile),
      ∃ c, readTextFile f = .ok c) :
    ∃ repoItems : List ContextItem, repoItems.length ≤ 1 ∧
      getContextItems resources getFile chunkCode readTextFile =
        ((if unionFiles resources treeKept = [] then []
          else
            [{ role := "user",
               content := treeHeader ++
                 String.intercalate "\n"
                   (sortStrings (unionFiles resources treeKept)) }]) ++
          repoItems ++
          (unionFiles resources (fun k => k == ResourceKind.wholeFile)).map
            (fun f => wholeFileItem f (okContentD (readTextFile f))),
         none) := by
  refine ⟨repoPhaseItems getFile chunkCode
    (unionFiles resources (fun k => k == ResourceKind.repoMap)),
    repoPhaseItems_length_le_one _ _ _, ?_⟩
  rw [getContextItems_eq, wholeFileLoop_all_ok readTextFile _ h,
    treePhaseItems_eq]

theorem claim_C4_witness :
    (∀ f ∈ unionFiles
        [FileMatchResource.mk ResourceKind.fileTree ["b", "a"],
         FileMatchResource.mk ResourceKind.wholeFile ["w"]]
        (fun k => k == ResourceKind.wholeFile),
      ∃ c, (fun (_ : String) => (Except.ok "" : Except Err String)) f =
        .ok c) ∧
    (∃ repoItems : List ContextItem, repoItems.length ≤ 1 ∧
      getContextItems
        [FileMatchResource.mk ResourceKind.fileTree ["b", "a"],
         FileMatchResource.mk ResourceKind.wholeFile ["w"]]
        (fun _ => .error "unused") (fun _ _ => .error "unused")
        (fun _ => .ok "") =
        ((if unionFiles
            [FileMatchResource.mk ResourceKind.fileTree ["b", "a"],
             FileMatchResource.mk ResourceKind.wholeFile ["w"]]
            treeKept = [] then []
          else
            [{ role := "user",
               content := treeHeader ++
                 String.intercalate "\n"
                   (sortStrings (unionFiles
                     [FileMatchResource.mk ResourceKind.fileTree ["b", "a"],
                      FileMatchResource.mk ResourceKind.wholeFile ["w"]]
                     treeKept)) }]) ++
          repoItems ++
          (unionFiles
            [FileMatchResource.mk ResourceKind.fileTree ["b", "a"],
             FileMatchResource.mk ResourceKind.wholeFile ["w"]]
            (fun k => k == ResourceKind.wholeFile)).map
            (fun f => wholeFileItem f
              (okContentD ((fun (_ : String) =>
                (Except.ok "" : Except Err String)) f))),
         none)) :=
  ⟨fun _ _ => ⟨"", rfl⟩,
    claim_C4_phase_order _ _ _ _ (fun _ _ => ⟨"", rfl⟩)⟩

/-- **C5.** In the whole-file phase, a failing content fetch aborts the
assembly: the run ends with that error, the files before the failing one
each contributed their item, and neither the failing file nor any later
file of the whole-file union contributes an item. -/
theorem claim_C5_whole_file_abort (resources : List FileMatchResource)
    (getFile : String → Except Err String)
    (chunkCode : String → LanguageEnum → Except Err (List Chunk))
    (readTextFile : String → Except Err String)
    (pre : List String) (f : String) (post : List String) (e : Err)
    (hu : unionFiles resources (fun k => k == ResourceKind.wholeFile) =
      pre ++ f :: post)
    (hpre : ∀ g ∈ pre, ∃ c, readTextFile g = .ok c)
    (hf : readTextFile f = .error e) :
    ∃ repoItems : List ContextItem, repoItems.length ≤ 1 ∧
      getContextItems resources getFile chunkCode readTextFile =
        ((if unionFiles resources treeKept = [] then []
          else
            [{ role := "user",
               content := treeHeader ++
                 String.intercalate "\n"
                   (sortStrings (unionFiles resources treeKept)) }]) ++
          repoItems ++
          pre.map (fun g => wholeFileItem g (okContentD (readTextFile g))),
         some e) := by
  refine ⟨repoPhaseItems getFile chunkCode
    (unionFiles resources (fun k => k == ResourceKind.repoMap)),
    repoPhaseItems_length_le_one _ _ _, ?_⟩
  rw [getContextItems_eq, hu,
    wholeFileLoop_abort readTextFile pre f post e hpre hf,
    treePhaseItems_eq]

theorem claim_C5_witness :
    (unionFiles [FileMatchResource.mk ResourceKind.wholeFile ["w1", "w2"]]
      (fun k => k == ResourceKind.wholeFile) = ["w1"] ++ "w2" :: []) ∧
    ((fun g => if g = "w1" then (Except.ok "c" : Except Err String)
      else .error "boom") "w2" = .error "boom") ∧
    (∃ repoItems : List ContextItem, repoItems.length ≤ 1 ∧
      getContextItems [FileMatchResource.mk ResourceKind.wholeFile ["w1", "w2"]]
        (fun _ => .error "unused") (fun _ _ => .error "unused")
        (fun g => if g = "w1" then .ok "c" else .error "boom") =
        ((if unionFiles [FileMatchResource.mk ResourceKind.wholeFile ["w1", "w2"]]
            treeKept = [] then []
          else
            [{ role := "user",
               content := treeHeader ++
                 String.intercalate "\n"
                   (sortStrings (unionFiles
                     [FileMatchResource.mk ResourceKind.wholeFile ["w1", "w2"]]
                     treeKept)) }]) ++
          repoItems ++
          ["w1"].map (fun g => wholeFileItem g
            (okContentD ((fun g => if g = "w1"
              then (Except.ok "c" : Except Err String)
              else .error "boom") g))),
         some "boom")) :=
  ⟨rfl, rfl,
    claim_C5_whole_file_abort
      [FileMatchResource.mk ResourceKind.wholeFile ["w1", "w2"]]
      (fun _ => .error "unused") (fun _ _ => .error "unused")
      (fun g => if g = "w1" then .ok "c" else .error "boom")
      ["w1"] "w2" [] "boom" rfl
      (fun g hg => by
        simp only [List.mem_singleton] at hg
        subst hg
        exact ⟨"c", rfl⟩)
      rfl⟩

/-- **C6 (counterexample).** The claim's formatter — label = the chunk's
first *non-blank* line, trimmed — disagrees with the source's
`formatFileOutput` — label = the chunk's *first* line, trimmed — on a chunk
whose first line is blank: for content `"\nfoo"` the source emits only the
header, while the claim mandates a `"- foo"` line. -/
theorem claim_C6_counterexample :
    formatFileOutput "a.py" [{ content := "\nfoo" }] = some "a.py:\n" ∧
    formatFileOutputClaimed "a.py" [{ content := "\nfoo" }] =
      some "a.py:\n- foo\n" ∧
    formatFileOutput "a.py" [{ content := "\nfoo" }] ≠
      formatFileOutputClaimed "a.py" [{ content := "\nfoo" }] :=
  ⟨by decide, by decide, by decide⟩

/-- **C6 (amended).** For every file whose chunk list is non-empty, the
repo-map section formatted for it is the header line `"<path>:"` followed
by one `"- <label>"` line per chunk, where label is that chunk's *first*
text line with leading and trailing whitespace stripped, and a chunk whose
label is blank (even if a later line is not) contributes no line at all. -/
theorem claim_C6_amended_format (filePath : String) (chunks : List Chunk)
    (h : chunks ≠ []) :
    formatFileOutput filePath chunks =
      some ((filePath ++ ":\n") ++ concatAll (chunks.map chunkBulletLine)) := by
  unfold formatFileOutput
  rw [if_neg (by simp [h]), foldl_chunkBulletLine]

theorem claim_C6_witness :
    ([{ content := " def foo(): \nbody" }] : List Chunk) ≠ [] ∧
    formatFileOutput "a.py" [{ content := " def foo(): \nbody" }] =
      some (("a.py" ++ ":\n") ++
        concatAll (([{ content := " def foo(): \nbody" }] : List Chunk).map
          chunkBulletLine)) :=
  ⟨by decide,
    claim_C6_amended_format "a.py" [{ content := " def foo(): \nbody" }]
      (by decide)⟩

/-- **C7.** `getLanguageFromExtension` maps exactly the listed extensions
to their language tags, maps every other extension to `none`, and
`generateRepoMap` silently skips a file with an unmapped extension: on such
a single-file set it succeeds with the sentinel. -/
theorem claim_C7_extension_table :
    (getLanguageFromExtension ".js" = some .javascript ∧
     getLanguageFromExtension ".jsx" = some .javascript ∧
     getLanguageFromExtension ".ts" = some .typescript ∧
     getLanguageFromExtension ".tsx" = some .typescript ∧
     getLanguageFromExtension ".py" = some .python ∧
     getLanguageFromExtension ".h" = some .c ∧
     getLanguageFromExtension ".c" = some .c ∧
     getLanguageFromExtension ".hxx" = some .cpp ∧
     getLanguageFromExtension ".cxx" = some .cpp ∧
     getLanguageFromExtension ".hpp" = some .cpp ∧
     getLanguageFromExtension ".cpp" = some .cpp ∧
     getLanguageFromExtension ".rs" = some .rust ∧
     getLanguageFromExtension ".go" = some .go ∧
     getLanguageFromExtension ".java" = some .java ∧
     getLanguageFromExtension ".rb" = some .ruby ∧
     getLanguageFromExtension ".sh" = some .bash ∧
     getLanguageFromExtension ".bash" = some .bash) ∧
    (∀ ext, ext ∉ ([".js", ".jsx", ".ts", ".tsx", ".py", ".h", ".c", ".hxx",
        ".cxx", ".hpp", ".cpp", ".rs", ".go", ".java", ".rb", ".sh",
        ".bash"] : List String) →
      getLanguageFromExtension ext = none) ∧
    (∀ (getFile : String → Except Err String)
        (chunkCode : String → LanguageEnum → Except Err (List Chunk))
        (file : String),
      getLanguageFromExtension (extname file) = none →
      generateRepoMap getFile chunkCode [file] =
        .ok (none, { disposed := true })) := by
  refine ⟨by decide, ?_, ?_⟩
  · intro ext h
    simp only [List.mem_cons, List.not_mem_nil, or_false, not_or] at h
    obtain ⟨h1, h2, h3, h4, h5, h6, h7, h8, h9, h10, h11, h12, h13, h14,
      h15, h16, h17⟩ := h
    simp [getLanguageFromExtension, h1, h2, h3, h4, h5, h6, h7, h8, h9,
      h10, h11, h12, h13, h14, h15, h16, h17]
  · intro getFile chunkCode file hl
    rw [generateRepoMap_eq]
    have hsec : sectionOf getFile chunkCode file = none :=
      (sectionOf_eq_none_iff getFile chunkCode file).mpr
        (Or.inr (Or.inr (Or.inl hl)))
    simp [List.filterMap_cons, hsec]

theorem claim_C7_witness :
    ((".xyz" : String) ∉ ([".js", ".jsx", ".ts", ".tsx", ".py", ".h", ".c",
        ".hxx", ".cxx", ".hpp", ".cpp", ".rs", ".go", ".java", ".rb",
        ".sh", ".bash"] : List String)) ∧
    getLanguageFromExtension ".xyz" = none ∧
    getLanguageFromExtension (extname "a.xyz") = none ∧
    generateRepoMap (fun _ => .ok "x") (fun _ _ => .ok []) ["a.xyz"] =
      .ok (none, { disposed := true }) :=
  ⟨by decide,
    claim_C7_extension_table.2.1 ".xyz" (by decide),
    claim_C7_extension_table.2.1 (extname "a.xyz") (by decide),
    claim_C7_extension_table.2.2 (fun _ => .ok "x") (fun _ _ => .ok [])
      "a.xyz" (claim_C7_extension_table.2.1 (extname "a.xyz") (by decide))⟩

/-- **C8.** On every input — read failures and chunker failures included —
`generateRepoMap` exits with the chunker factory disposed: every modelled
exit path runs `factory.dispose()`, because the per-file `try/catch`
catches every failure the loop can raise and the call then falls through to
the dispose statement. -/
theorem claim_C8_factory_disposed (getFile : String → Except Err String)
    (chunkCode : String → LanguageEnum → Except Err (List Chunk))
    (files : List String) :
    ∃ r, generateRepoMap getFile chunkCode files =
      .ok (r, { disposed := true }) :=
  ⟨_, generateRepoMap_eq getFile chunkCode files⟩

/-- **C9 (counterexample).** `CodeBaseState.deserialize` restores the
serialized names verbatim, with no validation against the registry: a
snapshot naming an unregistered resource puts that name into the enabled
set, so the claimed invariant fails on the restore path. -/
theorem claim_C9_counterexample :
    ¬(∀ n ∈ (CodeBaseState.deserialize ["bogus"]).enabledResources,
        n ∈ (["a"] : List String)) := by
  decide

/-- **C9 (amended).** After any of the three registry mutations
(`enableResources`, `disableResources`, `setEnabledResources`) — applied to
a session whose enabled set held only registered names — every name in the
enabled set is registered; `deserialize`, however, restores names without
registry validation and is excluded. -/
theorem claim_C9_amended_mutators_registered
    (registry resourceNames : List String) (st : CodeBaseState)
    (hst : ∀ n ∈ st.enabledResources, n ∈ registry) :
    (∀ n ∈ (runMutation st
        (enableResources registry resourceNames st)).enabledResources,
      n ∈ registry) ∧
    (∀ n ∈ (runMutation st
        (disableResources registry resourceNames st)).enabledResources,
      n ∈ registry) ∧
    (∀ n ∈ (runMutation st
        (setEnabledResources registry resourceNames st)).enabledResources,
      n ∈ registry) := by
  cases hr : resolveAll registry resourceNames with
  | error e =>
    simp only [enableResources, disableResources, setEnabledResources, hr,
      runMutation]
    exact ⟨hst, hst, hst⟩
  | ok matched =>
    have hm : ∀ n ∈ matched, n ∈ registry :=
      resolveAll_mem_registry registry resourceNames matched hr
    simp only [enableResources, disableResources, setEnabledResources, hr,
      runMutation]
    refine ⟨?_, ?_, ?_⟩
    · intro n hn
      rcases (mem_foldl_jsAdd matched st.enabledResources n).mp hn with
        hacc | hmem
      · exact hst n hacc
      · exact hm n hmem
    · intro n hn
      exact hst n ((mem_foldl_jsDelete matched st.enabledResources n).mp hn).1
    · intro n hn
      exact hm n ((mem_jsNewSet matched n).mp hn)

theorem claim_C9_witness :
    (∀ n ∈ (CodeBaseState.mk ["a"]).enabledResources,
      n ∈ (["a", "b"] : List String)) ∧
    (∀ n ∈ (runMutation (CodeBaseState.mk ["a"])
        (enableResources ["a", "b"] ["b"]
          (CodeBaseState.mk ["a"]))).enabledResources,
      n ∈ (["a", "b"] : List String)) :=
  ⟨by decide,
    (claim_C9_amended_mutators_registered ["a", "b"] ["b"]
      (CodeBaseState.mk ["a"]) (by decide)).1⟩

/-- **C10.** Serializing a session state to its plain list of names and
deserializing that list restores an enabled set equal to the original:
the round trip is the identity on the (duplicate-free) enabled set. -/
theorem claim_C10_serialize_roundtrip (st : CodeBaseState)
    (h : st.enabledResources.Nodup) :
    CodeBaseState.deserialize (CodeBaseState.serialize st) = st := by
  unfold CodeBaseState.serialize CodeBaseState.deserialize
  rw [jsNewSet_of_nodup st.enabledResources h]

theorem claim_C10_witness :
    (["a", "b"] : List String).Nodup ∧
    CodeBaseState.deserialize
      (CodeBaseState.serialize { enabledResources := ["a", "b"] }) =
      { enabledResources := ["a", "b"] } :=
  ⟨by decide, claim_C10_serialize_roundtrip
    { enabledResources := ["a", "b"] } (by decide)⟩

end CodeBase
